import Mathlib

/-
Verification development for the Wave_propagation repository.

The definitions below are shallow embeddings of the Python sources:
  - Guia_de_Ondas/Guia_rectangular/mesh.py      (rect_mesh)
  - Guia_de_Ondas/Guia_rectangular/assembly.py  (assemble_K_M)
  - Guia_de_Ondas/Guia_rectangular/eigen.py     (solve_mode)
  - Helmholtz_FEM/elements.py                   (BilinearElement)
  - Helmholtz_FEM/pml.py                        (pml_functions)
  - Helmholtz_FEM/assembler.py                  (assemble_fem_system)
  - Helmholtz_interface_FEM/pml.py              (make_pml_transform)
Machine floats are embedded as exact rationals where the code computes
rational values, and as exact reals where the code manipulates
irrational constants (pi, the Gauss abscissa 1/sqrt 3); numpy arrays
become lists or index functions; Python exceptions become an Except
error monad.  Sparse-matrix accumulation (scatter-add into lil_matrix)
is embedded as the entrywise sum of per-element contributions.
-/

/-- Python exception kinds that the embedded code paths can raise
(ZeroDivisionError from float division by zero, ValueError from scipy
argument validation, numpy.linalg.LinAlgError from inverting a singular
matrix), together with the two dedicated error names that the
specification postulates for the mesh builder and the eigensolver.
The embedded code never produces the latter two. -/
inductive PyErr where
  | zeroDivisionError : PyErr
  | valueError : PyErr
  | linAlgError : PyErr
  | invalidMeshSize : PyErr
  | underdeterminedSystem : PyErr
deriving DecidableEq

namespace HelmholtzFEM

/-- Embeds BilinearElement.shape_functions (Helmholtz_FEM/elements.py):
N1 = (1/4)(1-xi)(1-eta), N2 = (1/4)(1+xi)(1-eta),
N3 = (1/4)(1+xi)(1+eta), N4 = (1/4)(1-xi)(1+eta).
Generic over the scalar field so it can be used at both the exact
rationals and the reals. -/
def shape_functions {R : Type} [Field R] (xi eta : R) : Fin 4 → R :=
  ![(1/4) * (1 - xi) * (1 - eta),
    (1/4) * (1 + xi) * (1 - eta),
    (1/4) * (1 + xi) * (1 + eta),
    (1/4) * (1 - xi) * (1 + eta)]

/-- Embeds BilinearElement.shape_derivatives, first component (the
derivatives with respect to xi). -/
def shape_dxi {R : Type} [Field R] (xi eta : R) : Fin 4 → R :=
  ![-(1/4) * (1 - eta),
    (1/4) * (1 - eta),
    (1/4) * (1 + eta),
    -(1/4) * (1 + eta)]

/-- Embeds BilinearElement.shape_derivatives, second component (the
derivatives with respect to eta). -/
def shape_deta {R : Type} [Field R] (xi eta : R) : Fin 4 → R :=
  ![-(1/4) * (1 - xi),
    -(1/4) * (1 + xi),
    (1/4) * (1 + xi),
    (1/4) * (1 - xi)]

/-- The fields of HelmholtzDomain (Helmholtz_FEM/domain.py) that the
assembler and the PML transform read: total node counts nx, ny, the PML
layer node count nbl, the physical PML width lpml, the coordinate
arrays (index functions; the code only reads nonnegative indices) and
the grid spacings dx, dy. -/
structure Domain where
  nx : ℕ
  ny : ℕ
  nbl : ℕ
  lpml : ℝ
  x_array : ℕ → ℝ
  y_array : ℕ → ℝ
  dx : ℝ
  dy : ℝ

/-- Embeds sigma_x of pml_functions (Helmholtz_FEM/pml.py): the
quadratic damping profile inside either absorbing layer, 0 otherwise.
The right-layer comparison x_idx > nx - nbl - 1 is integer arithmetic
in Python, embedded over the integers. -/
noncomputable def sigma_x (d : Domain) (alpha frequency : ℝ) (x_idx : ℕ) : ℝ :=
  if x_idx < d.nbl then
    2 * Real.pi * alpha * frequency *
      ((|d.x_array x_idx| - |d.x_array d.nbl|) / d.lpml) ^ 2
  else if (x_idx : ℤ) > (d.nx : ℤ) - (d.nbl : ℤ) - 1 then
    2 * Real.pi * alpha * frequency *
      ((|d.x_array x_idx| - |d.x_array (d.nx - d.nbl - 1)|) / d.lpml) ^ 2
  else 0

/-- Embeds sigma_y of pml_functions (Helmholtz_FEM/pml.py). -/
noncomputable def sigma_y (d : Domain) (alpha frequency : ℝ) (y_idx : ℕ) : ℝ :=
  if y_idx < d.nbl then
    2 * Real.pi * alpha * frequency *
      ((|d.y_array y_idx| - |d.y_array d.nbl|) / d.lpml) ^ 2
  else if (y_idx : ℤ) > (d.ny : ℤ) - (d.nbl : ℤ) - 1 then
    2 * Real.pi * alpha * frequency *
      ((|d.y_array y_idx| - |d.y_array (d.ny - d.nbl - 1)|) / d.lpml) ^ 2
  else 0

/-- Embeds pml_transform of pml_functions (Helmholtz_FEM/pml.py):
s_tilde = 1 - i * sigma / omega on each axis, omega = 2 pi frequency. -/
noncomputable def pml_transform (d : Domain) (alpha frequency : ℝ)
    (x_idx y_idx : ℕ) : ℂ × ℂ :=
  let omega := 2 * Real.pi * frequency
  (1 - Complex.I * (sigma_x d alpha frequency x_idx : ℂ) / (omega : ℂ),
   1 - Complex.I * (sigma_y d alpha frequency y_idx : ℂ) / (omega : ℂ))

/-- The Gauss abscissa g = 1/sqrt 3 of the 2x2 rule used by
assemble_fem_system (Helmholtz_FEM/assembler.py). -/
noncomputable def gaussG : ℝ := 1 / Real.sqrt 3

/-- The four Gauss points [(-g,-g), (g,-g), (g,g), (-g,g)] of
assemble_fem_system; all four weights are 1. -/
noncomputable def gauss_points : Fin 4 → ℝ × ℝ :=
  ![(-gaussG, -gaussG), (gaussG, -gaussG), (gaussG, gaussG), (-gaussG, gaussG)]

/-- numpy.dot on length-4 vectors. -/
def dot4 (u v : Fin 4 → ℝ) : ℝ := ∑ k : Fin 4, u k * v k

/-- Python's int() conversion of a float: truncation toward zero. -/
noncomputable def pyInt (x : ℝ) : ℤ := if 0 ≤ x then ⌊x⌋ else ⌈x⌉

/-- The grid-index sampling expression of assemble_fem_system
(Helmholtz_FEM/assembler.py, the i_gp / j_gp lines):
min(max(int((x - x0) / dx), 0), n - 1). -/
noncomputable def sample_index (x0 dx : ℝ) (n : ℕ) (x : ℝ) : ℤ :=
  min (max (pyInt ((x - x0) / dx)) 0) ((n : ℤ) - 1)

/-- The x coordinates of the four vertices of quad element (i, j):
[x_array[i], x_array[i+1], x_array[i+1], x_array[i]]. -/
noncomputable def x_elem (d : Domain) (i : ℕ) : Fin 4 → ℝ :=
  ![d.x_array i, d.x_array (i+1), d.x_array (i+1), d.x_array i]

/-- The y coordinates of the four vertices of quad element (i, j):
[y_array[j], y_array[j], y_array[j+1], y_array[j+1]]. -/
noncomputable def y_elem (d : Domain) (j : ℕ) : Fin 4 → ℝ :=
  ![d.y_array j, d.y_array j, d.y_array (j+1), d.y_array (j+1)]

/-- The global node indices of quad element (i, j):
[j*nx+i, j*nx+(i+1), (j+1)*nx+(i+1), (j+1)*nx+i]. -/
def elem_nodes (nx i j : ℕ) : Fin 4 → ℕ :=
  ![j * nx + i, j * nx + (i+1), (j+1) * nx + (i+1), (j+1) * nx + i]

/-- The local element matrices Ke, Me and load Fe accumulated over the
Gauss points of one element. -/
structure ElemMats where
  Ke : Fin 4 → Fin 4 → ℂ
  Me : Fin 4 → Fin 4 → ℂ
  Fe : Fin 4 → ℂ

/-- The zero-initialized local matrices (np.zeros). -/
def emZero : ElemMats := { Ke := fun _ _ => 0, Me := fun _ _ => 0, Fe := fun _ => 0 }

open Classical in
/-- Embeds one Gauss-point iteration of the inner loop of
assemble_fem_system (Helmholtz_FEM/assembler.py): evaluates shape data,
the Jacobian (the code calls np.linalg.inv(J), which raises LinAlgError
when J is singular, i.e. when det J = 0 in exact arithmetic - there is
no tolerance check), physical derivatives, the Gauss point coordinates,
the truncated grid-index sample (i_gp, j_gp), the local wavenumber
k = omega / velocity[i_gp, j_gp], the PML pair at that same index, and
accumulates into Ke, Me, Fe with weight w = 1. -/
noncomputable def gauss_step (d : Domain) (frequency : ℝ)
    (velocity : ℕ → ℕ → ℝ) (source : ℝ → ℝ → ℂ) (alpha : ℝ) (i j : ℕ)
    (st : ElemMats) (gp : Fin 4) : Except PyErr ElemMats :=
  let omega := 2 * Real.pi * frequency
  let xi := (gauss_points gp).1
  let eta := (gauss_points gp).2
  let w : ℝ := 1
  let N := shape_functions xi eta
  let dN_dxi := shape_dxi xi eta
  let dN_deta := shape_deta xi eta
  let dx_dxi := dot4 dN_dxi (x_elem d i)
  let dx_deta := dot4 dN_deta (x_elem d i)
  let dy_dxi := dot4 dN_dxi (y_elem d j)
  let dy_deta := dot4 dN_deta (y_elem d j)
  let detJ := dx_dxi * dy_deta - dx_deta * dy_dxi
  if detJ = 0 then Except.error PyErr.linAlgError
  else
    let dN_dx := fun k => (dy_deta / detJ) * dN_dxi k + (-dx_deta / detJ) * dN_deta k
    let dN_dy := fun k => (-dy_dxi / detJ) * dN_dxi k + (dx_dxi / detJ) * dN_deta k
    let x_gp := dot4 N (x_elem d i)
    let y_gp := dot4 N (y_elem d j)
    let i_gp := (sample_index (d.x_array 0) d.dx d.nx x_gp).toNat
    let j_gp := (sample_index (d.y_array 0) d.dy d.ny y_gp).toNat
    let v_gp := velocity i_gp j_gp
    let k_gp := omega / v_gp
    let s := pml_transform d alpha frequency i_gp j_gp
    let sx := s.1
    let sy := s.2
    Except.ok
      { Ke := fun a b => st.Ke a b +
          ((w * detJ : ℝ) : ℂ) * ((sy / sx) * ((dN_dx a * dN_dx b : ℝ) : ℂ) +
            (sx / sy) * ((dN_dy a * dN_dy b : ℝ) : ℂ)),
        Me := fun a b => st.Me a b +
          ((w * detJ : ℝ) : ℂ) * (((k_gp : ℝ) : ℂ) ^ 2 * sx * sy * ((N a * N b : ℝ) : ℂ)),
        Fe := fun a => st.Fe a +
          ((w * detJ : ℝ) : ℂ) * source x_gp y_gp * ((N a : ℝ) : ℂ) }

/-- The global matrices K, M and load F (entrywise view of the sparse
lil_matrix accumulation). -/
structure GlobalMats where
  K : ℕ → ℕ → ℂ
  M : ℕ → ℕ → ℂ
  F : ℕ → ℂ

/-- The zero-initialized global system. -/
def gmZero : GlobalMats :=
  { K := fun _ _ => 0, M := fun _ _ => 0, F := fun _ => 0 }

/-- Embeds one element iteration of assemble_fem_system: runs the four
Gauss points, then scatter-adds the local Ke, Me, Fe into the global
K, M, F at the element's global node indices. -/
noncomputable def elem_step (d : Domain) (frequency : ℝ)
    (velocity : ℕ → ℕ → ℝ) (source : ℝ → ℝ → ℂ) (alpha : ℝ)
    (g : GlobalMats) (cell : ℕ × ℕ) : Except PyErr GlobalMats := do
  let j := cell.1
  let i := cell.2
  let em ← List.foldlM (gauss_step d frequency velocity source alpha i j)
    emZero (List.finRange 4)
  Except.ok
    { K := fun a b => g.K a b + ∑ p : Fin 4, ∑ q : Fin 4,
        if elem_nodes d.nx i j p = a ∧ elem_nodes d.nx i j q = b
        then em.Ke p q else 0,
      M := fun a b => g.M a b + ∑ p : Fin 4, ∑ q : Fin 4,
        if elem_nodes d.nx i j p = a ∧ elem_nodes d.nx i j q = b
        then em.Me p q else 0,
      F := fun a => g.F a + ∑ p : Fin 4,
        if elem_nodes d.nx i j p = a then em.Fe p else 0 }

/-- The element traversal order of assemble_fem_system: j over
range(ny-1), i over range(nx-1). -/
def elem_cells (d : Domain) : List (ℕ × ℕ) :=
  (List.range (d.ny - 1)).flatMap (fun j =>
    (List.range (d.nx - 1)).map (fun i => (j, i)))

/-- Embeds assemble_fem_system (Helmholtz_FEM/assembler.py): folds the
element loop over all cells and returns (A, F) with A = K - M. -/
noncomputable def assemble_fem_system (d : Domain) (frequency : ℝ)
    (velocity : ℕ → ℕ → ℝ) (source : ℝ → ℝ → ℂ) (alpha : ℝ) :
    Except PyErr ((ℕ → ℕ → ℂ) × (ℕ → ℂ)) := do
  let g ← List.foldlM (elem_step d frequency velocity source alpha)
    gmZero (elem_cells d)
  Except.ok (fun a b => g.K a b - g.M a b, g.F)

/-- A degenerate concrete domain for the Jacobian counterexample: two
nodes per axis (a single quad element) whose x coordinates coincide, so
the element has zero width and an exactly singular Jacobian. -/
noncomputable def degenerate_domain : Domain :=
  { nx := 2, ny := 2, nbl := 0, lpml := 1,
    x_array := fun _ => 0, y_array := fun k => (k : ℝ), dx := 0, dy := 1 }

/-- A concrete well-formed uniform domain (unit spacing, two nodes per
axis) used to exhibit the sampling behaviour at a quadrature point. -/
noncomputable def unit_domain : Domain :=
  { nx := 2, ny := 2, nbl := 0, lpml := 1,
    x_array := fun k => (k : ℝ), y_array := fun k => (k : ℝ), dx := 1, dy := 1 }

end HelmholtzFEM

namespace HelmholtzIFEM

/-- Embeds sigma_x of make_pml_transform
(Helmholtz_interface_FEM/pml.py); identical formula to the
Helmholtz_FEM variant, kept separate because the claim cites both
modules. -/
noncomputable def sigma_x (d : HelmholtzFEM.Domain) (alpha frequency : ℝ)
    (ix : ℕ) : ℝ :=
  if ix < d.nbl then
    2 * Real.pi * alpha * frequency *
      ((|d.x_array ix| - |d.x_array d.nbl|) / d.lpml) ^ 2
  else if (ix : ℤ) > (d.nx : ℤ) - (d.nbl : ℤ) - 1 then
    2 * Real.pi * alpha * frequency *
      ((|d.x_array ix| - |d.x_array (d.nx - d.nbl - 1)|) / d.lpml) ^ 2
  else 0

/-- Embeds sigma_y of make_pml_transform
(Helmholtz_interface_FEM/pml.py). -/
noncomputable def sigma_y (d : HelmholtzFEM.Domain) (alpha frequency : ℝ)
    (iy : ℕ) : ℝ :=
  if iy < d.nbl then
    2 * Real.pi * alpha * frequency *
      ((|d.y_array iy| - |d.y_array d.nbl|) / d.lpml) ^ 2
  else if (iy : ℤ) > (d.ny : ℤ) - (d.nbl : ℤ) - 1 then
    2 * Real.pi * alpha * frequency *
      ((|d.y_array iy| - |d.y_array (d.ny - d.nbl - 1)|) / d.lpml) ^ 2
  else 0

/-- Embeds pml_transform of make_pml_transform
(Helmholtz_interface_FEM/pml.py): s_tilde = 1.0 - i * sigma / omega. -/
noncomputable def pml_transform (d : HelmholtzFEM.Domain)
    (alpha frequency : ℝ) (ix iy : ℕ) : ℂ × ℂ :=
  let omega := 2 * Real.pi * frequency
  (1 - Complex.I * (sigma_x d alpha frequency ix : ℂ) / (omega : ℂ),
   1 - Complex.I * (sigma_y d alpha frequency iy : ℂ) / (omega : ℂ))

end HelmholtzIFEM

namespace GuiaRect

/-- Embeds numpy.linspace(0, stop, num) in exact arithmetic: the empty
list for num = 0, the singleton [0] (the start point) for num = 1, and
otherwise the num points i * stop / (num - 1), i = 0 .. num-1. -/
def linspace0 (stop : ℚ) (num : ℕ) : List ℚ :=
  if num = 1 then [0]
  else (List.range num).map (fun (i : ℕ) => stop * (i : ℚ) / ((num : ℚ) - 1))

/-- Embeds the node-numbering helper nidx of rect_mesh
(Guia_de_Ondas/Guia_rectangular/mesh.py): index = j * Nx + i. -/
def nidx (Nx i j : ℕ) : ℕ := j * Nx + i

/-- The value returned by rect_mesh: node coordinates Xy (row-major over
the meshgrid, node j*Nx+i at (xs[i], ys[j])), triangle connectivity Tri,
and the characteristic size h. -/
structure Mesh where
  Xy : List (ℚ × ℚ)
  Tri : List (ℕ × ℕ × ℕ)
  h : ℚ
deriving DecidableEq

/-- Stage 1 of rect_mesh (Guia_de_Ondas/Guia_rectangular/mesh.py): the
meshgrid coordinates (indexing="xy", ravelled row-major), so node
j*Nx+i carries (xs[i], ys[j]) with xs = linspace(0,W,Nx) and
ys = linspace(0,H,Ny). -/
def mesh_nodes (Nx Ny : ℕ) (W H : ℚ) : List (ℚ × ℚ) :=
  (List.range Ny).flatMap (fun j =>
    (List.range Nx).map (fun i =>
      ((linspace0 W Nx).getD i 0, (linspace0 H Ny).getD j 0)))

/-- Stage 3 of rect_mesh: for every grid cell (i, j) with i < Nx-1 and
j < Ny-1, the two triangles [n00, n10, n11] and [n00, n11, n01]. -/
def mesh_tris (Nx Ny : ℕ) : List (ℕ × ℕ × ℕ) :=
  (List.range (Ny - 1)).flatMap (fun j =>
    (List.range (Nx - 1)).flatMap (fun i =>
      [(nidx Nx i j, nidx Nx (i+1) j, nidx Nx (i+1) (j+1)),
       (nidx Nx i j, nidx Nx (i+1) (j+1), nidx Nx i (j+1))]))

/-- Embeds rect_mesh(Nx, Ny, W, H) of
Guia_de_Ondas/Guia_rectangular/mesh.py.  The coordinate and
connectivity stages are mesh_nodes and mesh_tris; stage 4 computes
hx = W/(Nx-1) and hy = H/(Ny-1), which in Python raises
ZeroDivisionError exactly when Nx = 1 (resp. Ny = 1), since then the
integer denominator Nx-1 is 0 (for Nx = 0 it is -1, no error).  There
is no validation of Nx, Ny anywhere in the function. -/
def rect_mesh (Nx Ny : ℕ) (W H : ℚ) : Except PyErr Mesh :=
  if Nx = 1 ∨ Ny = 1 then Except.error PyErr.zeroDivisionError
  else
    let hx := W / ((Nx : ℚ) - 1)
    let hy := H / ((Ny : ℚ) - 1)
    Except.ok { Xy := mesh_nodes Nx Ny W H, Tri := mesh_tris Nx Ny,
                h := max hx hy }

/-- The three global node indices of one connectivity row of
assemble_K_M (Guia_de_Ondas/Guia_rectangular/assembly.py). -/
def tri_ids (t : ℕ × ℕ × ℕ) : Fin 3 → ℕ := ![t.1, t.2.1, t.2.2]

/-- The x coordinates of the triangle's three vertices,
x = coords[ids, 0]. -/
def xver (coords : List (ℚ × ℚ)) (t : ℕ × ℕ × ℕ) : Fin 3 → ℚ :=
  fun i => (coords.getD (tri_ids t i) (0, 0)).1

/-- The y coordinates of the triangle's three vertices,
y = coords[ids, 1]. -/
def yver (coords : List (ℚ × ℚ)) (t : ℕ × ℕ × ℕ) : Fin 3 → ℚ :=
  fun i => (coords.getD (tri_ids t i) (0, 0)).2

/-- np.linalg.det of A = [[1,x0,y0],[1,x1,y1],[1,x2,y2]] in exact
arithmetic (cofactor expansion along the first column). -/
def detA (coords : List (ℚ × ℚ)) (t : ℕ × ℕ × ℕ) : ℚ :=
  (xver coords t 1 * yver coords t 2 - xver coords t 2 * yver coords t 1)
  - (xver coords t 0 * yver coords t 2 - xver coords t 2 * yver coords t 0)
  + (xver coords t 0 * yver coords t 1 - xver coords t 1 * yver coords t 0)

/-- The element area 0.5 * |det A| of assemble_K_M. -/
def area (coords : List (ℚ × ℚ)) (t : ℕ × ℕ × ℕ) : ℚ :=
  (1/2) * |detA coords t|

/-- The degenerate-element tolerance of assemble_K_M: skip the element
when area is at most 1e-18. -/
def areaTol : ℚ := 1 / 10 ^ 18

/-- Row 1 of np.linalg.inv(A) in exact arithmetic (adjugate over
determinant): the b coefficients of the P1 shape functions
N_i = a_i + b_i x + c_i y. -/
def bcoef (coords : List (ℚ × ℚ)) (t : ℕ × ℕ × ℕ) : Fin 3 → ℚ :=
  ![(yver coords t 1 - yver coords t 2) / detA coords t,
    (yver coords t 2 - yver coords t 0) / detA coords t,
    (yver coords t 0 - yver coords t 1) / detA coords t]

/-- Row 2 of np.linalg.inv(A) in exact arithmetic: the c coefficients
of the P1 shape functions. -/
def ccoef (coords : List (ℚ × ℚ)) (t : ℕ × ℕ × ℕ) : Fin 3 → ℚ :=
  ![(xver coords t 2 - xver coords t 1) / detA coords t,
    (xver coords t 0 - xver coords t 2) / detA coords t,
    (xver coords t 1 - xver coords t 0) / detA coords t]

/-- The constant local mass template Mloc = (1/12) [[2,1,1],[1,2,1],[1,1,2]]
of assemble_K_M. -/
def Mloc : Fin 3 → Fin 3 → ℚ :=
  fun i j => (1/12) * (if i = j then 2 else 1)

/-- The local stiffness matrix Ke = area * (outer b b + outer c c) of
assemble_K_M. -/
def elemKe (coords : List (ℚ × ℚ)) (t : ℕ × ℕ × ℕ) : Fin 3 → Fin 3 → ℚ :=
  fun i j => area coords t *
    (bcoef coords t i * bcoef coords t j + ccoef coords t i * ccoef coords t j)

/-- The local mass matrix Me = area * Mloc of assemble_K_M. -/
def elemMe (coords : List (ℚ × ℚ)) (t : ℕ × ℕ × ℕ) : Fin 3 → Fin 3 → ℚ :=
  fun i j => area coords t * Mloc i j

/-- The contribution of one triangle to global entry K[I, J]: zero when
the element is degenerate (the continue branch of assemble_K_M), else
the sum of Ke[i, j] over the local index pairs scattered onto (I, J). -/
def contribK (coords : List (ℚ × ℚ)) (t : ℕ × ℕ × ℕ) (I J : ℕ) : ℚ :=
  if area coords t ≤ areaTol then 0
  else ∑ i : Fin 3, ∑ j : Fin 3,
    if tri_ids t i = I ∧ tri_ids t j = J then elemKe coords t i j else 0

/-- The contribution of one triangle to global entry M[I, J]. -/
def contribM (coords : List (ℚ × ℚ)) (t : ℕ × ℕ × ℕ) (I J : ℕ) : ℚ :=
  if area coords t ≤ areaTol then 0
  else ∑ i : Fin 3, ∑ j : Fin 3,
    if tri_ids t i = I ∧ tri_ids t j = J then elemMe coords t i j else 0

/-- Entry (I, J) of the global stiffness matrix K assembled by
assemble_K_M: the accumulated scatter-add over the element loop. -/
def assembleK (coords : List (ℚ × ℚ)) (elems : List (ℕ × ℕ × ℕ))
    (I J : ℕ) : ℚ :=
  (elems.map (fun t => contribK coords t I J)).sum

/-- Entry (I, J) of the global mass matrix M assembled by
assemble_K_M. -/
def assembleM (coords : List (ℚ × ℚ)) (elems : List (ℕ × ℕ × ℕ))
    (I J : ℕ) : ℚ :=
  (elems.map (fun t => contribM coords t I J)).sum

/-- numpy.isclose with its default tolerances rtol = 1e-5, atol = 1e-8:
|a - b| is at most atol + rtol * |b|. -/
def isclose (a b : ℚ) : Prop :=
  |a - b| ≤ 1/100000000 + |b|/100000

instance (a b : ℚ) : Decidable (isclose a b) := by
  unfold isclose
  infer_instance

/-- The boundary-node mask bnd of the TM branch of solve_mode
(Guia_de_Ondas/Guia_rectangular/eigen.py): the node's x coordinate is
close to 0 or W, or its y coordinate is close to 0 or H. -/
def is_bnd (W H : ℚ) (p : ℚ × ℚ) : Prop :=
  isclose p.1 0 ∨ isclose p.1 W ∨ isclose p.2 0 ∨ isclose p.2 H

instance (W H : ℚ) (p : ℚ × ℚ) : Decidable (is_bnd W H p) := by
  unfold is_bnd
  infer_instance

/-- The interior index list np.where(~bnd)[0] of the TM branch of
solve_mode: the node indices whose coordinates are not on the boundary,
in increasing order. -/
def interior_idx (coords : List (ℚ × ℚ)) (W H : ℚ) : List ℕ :=
  (List.range coords.length).filter
    (fun k => decide (¬ is_bnd W H (coords.getD k (0, 0))))

/-- Stage 5 of solve_mode: vec = np.zeros(N); vec[interior] = w, where
w is the reduced eigenvector column produced by the eigensolver (kept
abstract: the r-th interior node receives w r). -/
def expand_field (coords : List (ℚ × ℚ)) (W H : ℚ) (w : ℕ → ℚ) : List ℚ :=
  (List.range coords.length).map (fun k =>
    if k ∈ interior_idx coords W H
    then w ((interior_idx coords W H).indexOf k) else 0)

/-- The full TM field returned by solve_mode after the sign
normalization: if the sum of the expanded vector is negative the whole
vector is negated. -/
def solve_mode_field (coords : List (ℚ × ℚ)) (W H : ℚ) (w : ℕ → ℚ) :
    List ℚ :=
  if (expand_field coords W H w).sum < 0
  then (expand_field coords W H w).map (fun v => -v)
  else expand_field coords W H w

/-- The eigen-count clamp of solve_mode
(Guia_de_Ondas/Guia_rectangular/eigen.py):
k_req = min(max(8, k_eigs), dim - 2), integer arithmetic, where dim is
the reduced system dimension Kii.shape[0]. -/
def k_req (dim k_eigs : ℕ) : ℤ :=
  min (max 8 (k_eigs : ℤ)) ((dim : ℤ) - 2)

/-- Modelled from scipy's documented argument validation for
scipy.sparse.linalg.eigsh (an external library call): the solver
raises a generic ValueError unless 0 < k < n, where n is the matrix
dimension.  The repository contains no dedicated error type for this
failure. -/
def eigsh_call (dim : ℕ) (k : ℤ) : Except PyErr Unit :=
  if 0 < k ∧ k < (dim : ℤ) then Except.ok () else Except.error PyErr.valueError

/-- The eigen-count request path of solve_mode: clamp k_eigs, then call
eigsh with the clamped count on the reduced dim-by-dim system. -/
def solve_mode_eigs (dim k_eigs : ℕ) : Except PyErr ℤ :=
  (eigsh_call dim (k_req dim k_eigs)).map (fun _ => k_req dim k_eigs)

end GuiaRect

namespace HelmholtzFEM

/-- C6: for every (xi, eta) of the reference square (in fact for every
rational (xi, eta) whatsoever), BilinearElement.shape_functions returns
four values summing exactly to 1, and at each of the four reference
node positions (-1,-1), (1,-1), (1,1), (-1,1) it returns exactly the
indicator vector of that node. -/
theorem shape_functions_unity_and_delta (xi eta : ℚ) :
    (∑ k : Fin 4, shape_functions xi eta k = 1) ∧
    shape_functions (-1 : ℚ) (-1) = ![1, 0, 0, 0] ∧
    shape_functions (1 : ℚ) (-1) = ![0, 1, 0, 0] ∧
    shape_functions (1 : ℚ) 1 = ![0, 0, 1, 0] ∧
    shape_functions (-1 : ℚ) 1 = ![0, 0, 0, 1] := by
  refine ⟨?_, ?_, ?_, ?_, ?_⟩
  · simp [shape_functions, Fin.sum_univ_four]
    ring
  all_goals
    funext k
    fin_cases k <;> norm_num [shape_functions]

end HelmholtzFEM

namespace GuiaRect

/-- C3 counterexample: the claim states that every call with Nx < 2 or
Ny < 2 fails with an InvalidMeshSize error.  At the concrete input
Nx = 0, Ny = 3, W = H = 1 the code does not fail at all: it returns a
mesh with no nodes and no triangles (numpy.linspace(0, W, 0) is empty
and W/(Nx-1) = 1/(-1) = -1 divides by -1, not by 0). -/
theorem rect_mesh_zero_nx_returns_ok :
    rect_mesh 0 3 1 1 = Except.ok { Xy := [], Tri := [], h := 1/2 } := by
  simp [rect_mesh, mesh_nodes, mesh_tris, linspace0]
  rw [max_eq_right (by norm_num)]
  norm_num

/-- C3 amended: rect_mesh performs no mesh-size validation and has no
InvalidMeshSize error.  A call with Nx = 1 or Ny = 1 fails with a
ZeroDivisionError raised by the spacing computation W/(Nx-1) or
H/(Ny-1); every other call (including Nx = 0 or Ny = 0, which yield a
mesh with zero elements) returns successfully. -/
theorem rect_mesh_no_size_validation (Nx Ny : ℕ) (W H : ℚ) :
    (Nx = 1 ∨ Ny = 1 →
      rect_mesh Nx Ny W H = Except.error PyErr.zeroDivisionError) ∧
    (Nx ≠ 1 → Ny ≠ 1 → (rect_mesh Nx Ny W H).isOk = true) := by
  constructor
  · intro h
    simp [rect_mesh, h]
  · intro h1 h2
    have hcond : ¬ (Nx = 1 ∨ Ny = 1) := by
      rintro (h | h)
      · exact h1 h
      · exact h2 h
    simp only [rect_mesh, if_neg hcond]
    rfl

/-- C3 amended, witness: at Nx = 1, Ny = 5 the amended theorem yields
the ZeroDivisionError outcome. -/
theorem rect_mesh_no_size_validation_witness :
    rect_mesh 1 5 1 1 = Except.error PyErr.zeroDivisionError :=
  (rect_mesh_no_size_validation 1 5 1 1).1 (Or.inl rfl)

lemma linspace0_getD (stop : ℚ) (num : ℕ) (h : num ≠ 1) (i : ℕ)
    (hi : i < num) :
    (linspace0 stop num).getD i 0 = stop * i / ((num : ℚ) - 1) := by
  unfold linspace0
  rw [if_neg h]
  have hlen : i <
      ((List.range num).map (fun (k : ℕ) => stop * (k : ℚ) / ((num : ℚ) - 1))).length := by
    rw [List.length_map, List.length_range]
    exact hi
  rw [List.getD_eq_getElem _ _ hlen, List.getElem_map, List.getElem_range]

lemma nidx_lt (Nx Ny i j : ℕ) (hi : i < Nx) (hj : j < Ny) :
    nidx Nx i j < Nx * Ny := by
  calc j * Nx + i < j * Nx + Nx := by omega
  _ = (j + 1) * Nx := by ring
  _ ≤ Ny * Nx := Nat.mul_le_mul_right _ (by omega)
  _ = Nx * Ny := Nat.mul_comm _ _

lemma mesh_nodes_length (Nx Ny : ℕ) (W H : ℚ) :
    (mesh_nodes Nx Ny W H).length = Nx * Ny := by
  simp [mesh_nodes, List.length_flatMap, Function.comp_def, Nat.mul_comm]

lemma mesh_nodes_nodup (Nx Ny : ℕ) (W H : ℚ)
    (hNx : 2 ≤ Nx) (hNy : 2 ≤ Ny) (hW : 0 < W) (hH : 0 < H) :
    (mesh_nodes Nx Ny W H).Nodup := by
  have hxinj : ∀ i₁ < Nx, ∀ i₂ < Nx,
      (linspace0 W Nx).getD i₁ 0 = (linspace0 W Nx).getD i₂ 0 → i₁ = i₂ := by
    intro i₁ h₁ i₂ h₂ he
    rw [linspace0_getD W Nx (by omega) i₁ h₁,
        linspace0_getD W Nx (by omega) i₂ h₂] at he
    have hden : ((Nx : ℚ) - 1) ≠ 0 := by
      have h2 : (2 : ℚ) ≤ (Nx : ℚ) := by exact_mod_cast hNx
      intro hc
      rw [sub_eq_zero] at hc
      rw [hc] at h2
      norm_num at h2
    field_simp [hden] at he
    rcases he with h | h
    · exact_mod_cast h
    · exact absurd h (ne_of_gt hW)
  have hyinj : ∀ j₁ < Ny, ∀ j₂ < Ny,
      (linspace0 H Ny).getD j₁ 0 = (linspace0 H Ny).getD j₂ 0 → j₁ = j₂ := by
    intro j₁ h₁ j₂ h₂ he
    rw [linspace0_getD H Ny (by omega) j₁ h₁,
        linspace0_getD H Ny (by omega) j₂ h₂] at he
    have hden : ((Ny : ℚ) - 1) ≠ 0 := by
      have h2 : (2 : ℚ) ≤ (Ny : ℚ) := by exact_mod_cast hNy
      intro hc
      rw [sub_eq_zero] at hc
      rw [hc] at h2
      norm_num at h2
    field_simp [hden] at he
    rcases he with h | h
    · exact_mod_cast h
    · exact absurd h (ne_of_gt hH)
  rw [mesh_nodes, List.nodup_flatMap]
  constructor
  · intro j hj
    refine List.Nodup.map_on ?_ (List.nodup_range Nx)
    intro i₁ h₁ i₂ h₂ he
    exact hxinj i₁ (by simpa using h₁) i₂ (by simpa using h₂)
      (congrArg Prod.fst he)
  · rw [List.pairwise_iff_getElem]
    intro a b ha hb hab
    simp only [List.length_range] at ha hb
    simp only [List.getElem_range]
    intro p hp hq
    simp only [List.mem_map, List.mem_range] at hp hq
    obtain ⟨i₁, hi₁, rfl⟩ := hp
    obtain ⟨i₂, hi₂, he⟩ := hq
    have hba : b = a := hyinj b hb a ha (congrArg Prod.snd he)
    omega

lemma mesh_tris_length (Nx Ny : ℕ) :
    (mesh_tris Nx Ny).length = 2 * (Nx - 1) * (Ny - 1) := by
  simp [mesh_tris, List.length_flatMap, Function.comp_def, Nat.mul_comm]

lemma mesh_tris_bounds (Nx Ny : ℕ) (t : ℕ × ℕ × ℕ)
    (ht : t ∈ mesh_tris Nx Ny) :
    t.1 < Nx * Ny ∧ t.2.1 < Nx * Ny ∧ t.2.2 < Nx * Ny := by
  simp only [mesh_tris, List.mem_flatMap, List.mem_range] at ht
  obtain ⟨j, hj, i, hi, ht⟩ := ht
  have hiNx : i < Nx := by omega
  have hi1 : i + 1 < Nx := by omega
  have hjNy : j < Ny := by omega
  have hj1 : j + 1 < Ny := by omega
  simp only [List.mem_cons, List.mem_singleton] at ht
  rcases ht with rfl | rfl | h
  · exact ⟨nidx_lt Nx Ny i j hiNx hjNy, nidx_lt Nx Ny (i+1) j hi1 hjNy,
      nidx_lt Nx Ny (i+1) (j+1) hi1 hj1⟩
  · exact ⟨nidx_lt Nx Ny i j hiNx hjNy, nidx_lt Nx Ny (i+1) (j+1) hi1 hj1,
      nidx_lt Nx Ny i (j+1) hiNx hj1⟩
  · exact absurd h (List.not_mem_nil _)

/-- C5: for every Nx, Ny at least 2 and positive W, H, rect_mesh
returns a mesh with exactly Nx*Ny nodes of pairwise distinct
coordinates, exactly 2*(Nx-1)*(Ny-1) triangles, and every connectivity
index in [0, Nx*Ny). -/
theorem rect_mesh_invariants (Nx Ny : ℕ) (W H : ℚ) (m : Mesh)
    (hNx : 2 ≤ Nx) (hNy : 2 ≤ Ny) (hW : 0 < W) (hH : 0 < H)
    (hm : rect_mesh Nx Ny W H = Except.ok m) :
    m.Xy.length = Nx * Ny ∧ m.Xy.Nodup ∧
    m.Tri.length = 2 * (Nx - 1) * (Ny - 1) ∧
    ∀ t ∈ m.Tri, t.1 < Nx * Ny ∧ t.2.1 < Nx * Ny ∧ t.2.2 < Nx * Ny := by
  have hcond : ¬ (Nx = 1 ∨ Ny = 1) := by omega
  rw [rect_mesh, if_neg hcond] at hm
  have hXy : m.Xy = mesh_nodes Nx Ny W H := by
    cases hm
    rfl
  have hTri : m.Tri = mesh_tris Nx Ny := by
    cases hm
    rfl
  rw [hXy, hTri]
  exact ⟨mesh_nodes_length Nx Ny W H,
    mesh_nodes_nodup Nx Ny W H hNx hNy hW hH,
    mesh_tris_length Nx Ny,
    fun t ht => mesh_tris_bounds Nx Ny t ht⟩

/-- C5 witness: the invariants instantiated on the concrete 2-by-2 unit
square mesh. -/
theorem rect_mesh_invariants_witness :
    ∃ m : Mesh, m.Xy.length = 2 * 2 ∧ m.Xy.Nodup ∧
      m.Tri.length = 2 * (2 - 1) * (2 - 1) ∧
      ∀ t ∈ m.Tri, t.1 < 2 * 2 ∧ t.2.1 < 2 * 2 ∧ t.2.2 < 2 * 2 := by
  refine ⟨{ Xy := mesh_nodes 2 2 1 1, Tri := mesh_tris 2 2, h := max 1 1 }, ?_⟩
  exact rect_mesh_invariants 2 2 1 1 _ (by decide) (by decide)
    (by norm_num) (by norm_num)
    (by rw [rect_mesh, if_neg (by omega)]; norm_num)

end GuiaRect

namespace GuiaRect

lemma scatter_pair (N : ℕ) (x : ℕ → ℚ) (A B : ℕ) (K : ℚ) :
    ∑ I ∈ Finset.range N, ∑ J ∈ Finset.range N,
      x I * (if A = I ∧ B = J then K else 0) * x J
    = (if A < N then x A else 0) * K * (if B < N then x B else 0) := by
  have h1 : ∀ I J : ℕ, x I * (if A = I ∧ B = J then K else 0) * x J
      = (if A = I then x I else 0) * K * (if B = J then x J else 0) := by
    intro I J
    by_cases hA : A = I <;> by_cases hB : B = J <;> simp [hA, hB]
  simp only [h1]
  rw [← Finset.sum_mul_sum]
  rw [← Finset.sum_mul]
  rw [Finset.sum_ite_eq, Finset.sum_ite_eq]
  simp [Finset.mem_range]

lemma elemKe_symm (coords : List (ℚ × ℚ)) (t : ℕ × ℕ × ℕ) (i j : Fin 3) :
    elemKe coords t i j = elemKe coords t j i := by
  unfold elemKe
  ring

lemma elemMe_symm (coords : List (ℚ × ℚ)) (t : ℕ × ℕ × ℕ) (i j : Fin 3) :
    elemMe coords t i j = elemMe coords t j i := by
  unfold elemMe Mloc
  by_cases h : i = j
  · subst h
    rfl
  · have h' : ¬ j = i := fun hh => h hh.symm
    simp [h, h']

lemma contribK_symm (coords : List (ℚ × ℚ)) (t : ℕ × ℕ × ℕ) (I J : ℕ) :
    contribK coords t I J = contribK coords t J I := by
  unfold contribK
  split
  · rfl
  · rw [Finset.sum_comm]
    refine Finset.sum_congr rfl (fun j _ => Finset.sum_congr rfl (fun i _ => ?_))
    rw [elemKe_symm coords t i j]
    exact if_congr and_comm rfl rfl

lemma contribM_symm (coords : List (ℚ × ℚ)) (t : ℕ × ℕ × ℕ) (I J : ℕ) :
    contribM coords t I J = contribM coords t J I := by
  unfold contribM
  split
  · rfl
  · rw [Finset.sum_comm]
    refine Finset.sum_congr rfl (fun j _ => Finset.sum_congr rfl (fun i _ => ?_))
    rw [elemMe_symm coords t i j]
    exact if_congr and_comm rfl rfl

lemma assembleK_cons (coords : List (ℚ × ℚ)) (t : ℕ × ℕ × ℕ)
    (rest : List (ℕ × ℕ × ℕ)) (I J : ℕ) :
    assembleK coords (t :: rest) I J
      = contribK coords t I J + assembleK coords rest I J := by
  simp [assembleK]

lemma assembleM_cons (coords : List (ℚ × ℚ)) (t : ℕ × ℕ × ℕ)
    (rest : List (ℕ × ℕ × ℕ)) (I J : ℕ) :
    assembleM coords (t :: rest) I J
      = contribM coords t I J + assembleM coords rest I J := by
  simp [assembleM]

lemma contribK_quadform_nonneg (coords : List (ℚ × ℚ)) (t : ℕ × ℕ × ℕ)
    (N : ℕ) (x : ℕ → ℚ) :
    0 ≤ ∑ I ∈ Finset.range N, ∑ J ∈ Finset.range N,
      x I * contribK coords t I J * x J := by
  by_cases hdeg : area coords t ≤ areaTol
  · simp [contribK, hdeg]
  · have hrw : ∑ I ∈ Finset.range N, ∑ J ∈ Finset.range N,
        x I * contribK coords t I J * x J
        = area coords t *
          ((∑ i : Fin 3, bcoef coords t i *
              (if tri_ids t i < N then x (tri_ids t i) else 0)) ^ 2 +
           (∑ i : Fin 3, ccoef coords t i *
              (if tri_ids t i < N then x (tri_ids t i) else 0)) ^ 2) := by
      simp only [contribK, if_neg hdeg, Fin.sum_univ_three]
      simp only [mul_add, add_mul, Finset.sum_add_distrib, scatter_pair]
      simp only [elemKe]
      ring
    rw [hrw]
    have harea : 0 ≤ area coords t := by
      unfold area
      positivity
    have hsq : 0 ≤ (∑ i : Fin 3, bcoef coords t i *
          (if tri_ids t i < N then x (tri_ids t i) else 0)) ^ 2 +
        (∑ i : Fin 3, ccoef coords t i *
          (if tri_ids t i < N then x (tri_ids t i) else 0)) ^ 2 := by
      positivity
    exact mul_nonneg harea hsq

/-- C7: for every coordinate list and connectivity list, the global K
and M assembled by assemble_K_M are exactly symmetric, and K is
positive semi-definite in exact arithmetic: the quadratic form
x -> sum over I, J below the node count of x_I K[I,J] x_J is
nonnegative for every rational vector x. -/
theorem assemble_K_M_symmetric_psd (coords : List (ℚ × ℚ))
    (elems : List (ℕ × ℕ × ℕ)) :
    (∀ I J, assembleK coords elems I J = assembleK coords elems J I) ∧
    (∀ I J, assembleM coords elems I J = assembleM coords elems J I) ∧
    (∀ x : ℕ → ℚ, 0 ≤ ∑ I ∈ Finset.range coords.length,
      ∑ J ∈ Finset.range coords.length,
        x I * assembleK coords elems I J * x J) := by
  refine ⟨?_, ?_, ?_⟩
  · intro I J
    unfold assembleK
    congr 1
    exact List.map_congr_left (fun t _ => contribK_symm coords t I J)
  · intro I J
    unfold assembleM
    congr 1
    exact List.map_congr_left (fun t _ => contribM_symm coords t I J)
  · intro x
    induction elems with
    | nil => simp [assembleK]
    | cons t rest ih =>
      have hsplit : ∑ I ∈ Finset.range coords.length,
          ∑ J ∈ Finset.range coords.length,
            x I * assembleK coords (t :: rest) I J * x J
          = (∑ I ∈ Finset.range coords.length,
              ∑ J ∈ Finset.range coords.length,
                x I * contribK coords t I J * x J)
            + ∑ I ∈ Finset.range coords.length,
                ∑ J ∈ Finset.range coords.length,
                  x I * assembleK coords rest I J * x J := by
        simp only [assembleK_cons, mul_add, add_mul, Finset.sum_add_distrib]
      rw [hsplit]
      exact add_nonneg (contribK_quadform_nonneg coords t coords.length x) ih

lemma elemKe_rowsum (coords : List (ℚ × ℚ)) (t : ℕ × ℕ × ℕ) (i : Fin 3) :
    elemKe coords t i 0 + elemKe coords t i 1 + elemKe coords t i 2 = 0 := by
  simp only [elemKe, bcoef, ccoef]
  fin_cases i <;> simp <;> ring

lemma scatter_row {A : ℕ} {K : ℚ} (N I B : ℕ) (hB : B < N) :
    ∑ J ∈ Finset.range N, (if A = I ∧ B = J then K else 0)
      = if A = I then K else 0 := by
  by_cases hA : A = I
  · simp [hA, Finset.sum_ite_eq, hB]
  · simp [hA]

lemma contribK_rowsum (coords : List (ℚ × ℚ)) (t : ℕ × ℕ × ℕ) (N I : ℕ)
    (h0 : tri_ids t 0 < N) (h1 : tri_ids t 1 < N) (h2 : tri_ids t 2 < N) :
    ∑ J ∈ Finset.range N, contribK coords t I J = 0 := by
  by_cases hdeg : area coords t ≤ areaTol
  · simp [contribK, hdeg]
  · simp only [contribK, if_neg hdeg, Fin.sum_univ_three,
      Finset.sum_add_distrib, scatter_row N I (tri_ids t 0) h0,
      scatter_row N I (tri_ids t 1) h1, scatter_row N I (tri_ids t 2) h2]
    by_cases hc0 : tri_ids t 0 = I <;> by_cases hc1 : tri_ids t 1 = I <;>
      by_cases hc2 : tri_ids t 2 = I <;>
        simp [hc0, hc1, hc2] <;>
          linarith [elemKe_rowsum coords t 0, elemKe_rowsum coords t 1,
            elemKe_rowsum coords t 2]

/-- C10: for every coordinate list and every connectivity list whose
indices are in range (the inputs on which the Python code completes
without an IndexError), every row of the assembled stiffness matrix K
sums to zero over the node-index range, i.e. K annihilates the constant
vector (1, ..., 1). -/
theorem assembleK_rows_sum_zero (coords : List (ℚ × ℚ))
    (elems : List (ℕ × ℕ × ℕ))
    (hb : ∀ t ∈ elems, t.1 < coords.length ∧ t.2.1 < coords.length ∧
      t.2.2 < coords.length) (I : ℕ) :
    ∑ J ∈ Finset.range coords.length, assembleK coords elems I J = 0 := by
  induction elems with
  | nil => simp [assembleK]
  | cons t rest ih =>
    have hbt := hb t (List.mem_cons_self t rest)
    have hbr : ∀ u ∈ rest, u.1 < coords.length ∧ u.2.1 < coords.length ∧
        u.2.2 < coords.length :=
      fun u hu => hb u (List.mem_cons_of_mem t hu)
    simp only [assembleK_cons, Finset.sum_add_distrib]
    rw [contribK_rowsum coords t coords.length I
      (by simpa [tri_ids] using hbt.1)
      (by simpa [tri_ids] using hbt.2.1)
      (by simpa [tri_ids] using hbt.2.2), ih hbr]
    norm_num

/-- C10 witness: row 0 of the stiffness matrix of the single reference
triangle (0,0), (1,0), (0,1) sums to zero. -/
theorem assembleK_rows_sum_zero_witness :
    ∑ J ∈ Finset.range ([((0:ℚ),(0:ℚ)), (1,0), (0,1)]).length,
      assembleK [((0:ℚ),(0:ℚ)), (1,0), (0,1)] [(0,1,2)] 0 J = 0 :=
  assembleK_rows_sum_zero [((0:ℚ),(0:ℚ)), (1,0), (0,1)] [(0,1,2)]
    (by decide) 0

end GuiaRect

/-- C4: for every index pair inside the interior region, boundary
indices included (nbl is at most ix which is at most nx - nbl - 1, and
likewise for iy), both PML transforms (pml_functions of
Helmholtz_FEM/pml.py and make_pml_transform of
Helmholtz_interface_FEM/pml.py) have sigma exactly 0, and return
exactly the stretching pair (1, 1) with zero imaginary part, for every
alpha, frequency and coordinate arrays. -/
theorem pml_interior_identity (d : HelmholtzFEM.Domain)
    (alpha frequency : ℝ) (ix iy : ℕ)
    (hx1 : d.nbl ≤ ix) (hx2 : (ix : ℤ) ≤ (d.nx : ℤ) - (d.nbl : ℤ) - 1)
    (hy1 : d.nbl ≤ iy) (hy2 : (iy : ℤ) ≤ (d.ny : ℤ) - (d.nbl : ℤ) - 1) :
    HelmholtzFEM.sigma_x d alpha frequency ix = 0 ∧
    HelmholtzFEM.sigma_y d alpha frequency iy = 0 ∧
    HelmholtzFEM.pml_transform d alpha frequency ix iy = (1, 1) ∧
    HelmholtzIFEM.sigma_x d alpha frequency ix = 0 ∧
    HelmholtzIFEM.sigma_y d alpha frequency iy = 0 ∧
    HelmholtzIFEM.pml_transform d alpha frequency ix iy = (1, 1) := by
  have hsx : HelmholtzFEM.sigma_x d alpha frequency ix = 0 := by
    unfold HelmholtzFEM.sigma_x
    rw [if_neg (by omega), if_neg (by omega)]
  have hsy : HelmholtzFEM.sigma_y d alpha frequency iy = 0 := by
    unfold HelmholtzFEM.sigma_y
    rw [if_neg (by omega), if_neg (by omega)]
  have hsx' : HelmholtzIFEM.sigma_x d alpha frequency ix = 0 := by
    unfold HelmholtzIFEM.sigma_x
    rw [if_neg (by omega), if_neg (by omega)]
  have hsy' : HelmholtzIFEM.sigma_y d alpha frequency iy = 0 := by
    unfold HelmholtzIFEM.sigma_y
    rw [if_neg (by omega), if_neg (by omega)]
  refine ⟨hsx, hsy, ?_, hsx', hsy', ?_⟩
  · unfold HelmholtzFEM.pml_transform
    rw [hsx, hsy]
    simp
  · unfold HelmholtzIFEM.pml_transform
    rw [hsx', hsy']
    simp

/-- C4 witness: on a concrete 5-by-5 domain with one PML layer, the
index pair (2, 2) lies in the interior and both transforms return
exactly (1, 1). -/
theorem pml_interior_identity_witness :
    HelmholtzFEM.pml_transform
      { nx := 5, ny := 5, nbl := 1, lpml := 1,
        x_array := fun k => (k : ℝ), y_array := fun k => (k : ℝ),
        dx := 1, dy := 1 } 2 3 2 2 = (1, 1) ∧
    HelmholtzIFEM.pml_transform
      { nx := 5, ny := 5, nbl := 1, lpml := 1,
        x_array := fun k => (k : ℝ), y_array := fun k => (k : ℝ),
        dx := 1, dy := 1 } 2 3 2 2 = (1, 1) := by
  have h := pml_interior_identity
    { nx := 5, ny := 5, nbl := 1, lpml := 1,
      x_array := fun k => (k : ℝ), y_array := fun k => (k : ℝ),
      dx := 1, dy := 1 } 2 3 2 2
    (by decide) (by decide) (by decide) (by decide)
  exact ⟨h.2.2.1, h.2.2.2.2.2⟩

namespace GuiaRect

lemma expand_field_length (coords : List (ℚ × ℚ)) (W H : ℚ) (w : ℕ → ℚ) :
    (expand_field coords W H w).length = coords.length := by
  simp [expand_field]

lemma expand_field_getD (coords : List (ℚ × ℚ)) (W H : ℚ) (w : ℕ → ℚ)
    (k : ℕ) (hk : k < coords.length) :
    (expand_field coords W H w).getD k 1 =
      if k ∈ interior_idx coords W H
      then w ((interior_idx coords W H).indexOf k) else 0 := by
  unfold expand_field
  rw [List.getD_eq_getElem _ _ (by simpa using hk), List.getElem_map,
    List.getElem_range]

/-- C8: for kind TM, solve_mode returns a field vector of full mesh
length whose entry is exactly 0 at every boundary node (every node
whose coordinates satisfy the isclose boundary test against 0, W, 0,
H), for every reduced eigenvector w produced by the eigensolver and
after the final sign normalization. -/
theorem tm_field_zero_on_boundary (coords : List (ℚ × ℚ)) (W H : ℚ)
    (w : ℕ → ℚ) (k : ℕ) (hk : k < coords.length)
    (hbnd : is_bnd W H (coords.getD k (0, 0))) :
    (solve_mode_field coords W H w).length = coords.length ∧
    (solve_mode_field coords W H w).getD k 1 = 0 := by
  have hkni : k ∉ interior_idx coords W H := by
    intro hmem
    rw [interior_idx, List.mem_filter] at hmem
    have h2 := hmem.2
    simp only [decide_eq_true_eq] at h2
    exact h2 hbnd
  have hlen : (expand_field coords W H w).length = coords.length :=
    expand_field_length coords W H w
  have hval : (expand_field coords W H w).getD k 1 = 0 := by
    rw [expand_field_getD coords W H w k hk]
    simp [hkni]
  have hk' : k < (expand_field coords W H w).length := by omega
  have hval' : (expand_field coords W H w).get ⟨k, hk'⟩ = 0 := by
    rw [List.getD_eq_getElem _ _ hk'] at hval
    simpa using hval
  unfold solve_mode_field
  split
  · constructor
    · simpa using hlen
    · have hk2 : k < ((expand_field coords W H w).map (fun v => -v)).length := by
        simpa using hk'
      rw [List.getD_eq_getElem _ _ hk2, List.getElem_map]
      simp only [List.get_eq_getElem] at hval'
      rw [hval']
      norm_num
  · exact ⟨hlen, hval⟩

/-- C8 witness: on the concrete 2-by-2 unit-square node list, node 0
sits on the boundary, and for the reduced vector that is constantly 5
the returned field has full length 4 and entry 0 at node 0. -/
theorem tm_field_zero_on_boundary_witness :
    (solve_mode_field [((0:ℚ),(0:ℚ)), (1,0), (0,1), (1,1)] 1 1
      (fun _ => 5)).length = 4 ∧
    (solve_mode_field [((0:ℚ),(0:ℚ)), (1,0), (0,1), (1,1)] 1 1
      (fun _ => 5)).getD 0 1 = 0 := by
  have h := tm_field_zero_on_boundary
    [((0:ℚ),(0:ℚ)), (1,0), (0,1), (1,1)] 1 1 (fun _ => 5) 0
    (by norm_num) (by norm_num [is_bnd, isclose])
  simpa using h

/-- C9 counterexample: with a reduced system of dimension 2 (fewer than
3 interior degrees of freedom) the eigen path fails with scipy's
generic ValueError (the clamped count is 0), not with a dedicated
UnderdeterminedSystem error - no such error exists in the code. -/
theorem solve_mode_eigs_dim2_valueError :
    solve_mode_eigs 2 12 = Except.error PyErr.valueError ∧
    PyErr.valueError ≠ PyErr.underdeterminedSystem := by
  constructor
  · rfl
  · decide

/-- C9 amended: the requested eigen-count is clamped to
min(max(8, k_eigs), dim - 2), which never exceeds the reduced dimension
minus the safety margin 2; when the reduced system has fewer than 3
interior degrees of freedom the clamped count is nonpositive and the
eigensolver call fails with scipy's generic ValueError (there is no
dedicated UnderdeterminedSystem error). -/
theorem solve_mode_eigs_clamp_and_failure (dim k_eigs : ℕ) :
    (k_req dim k_eigs ≤ (dim : ℤ) - 2) ∧
    (dim < 3 → solve_mode_eigs dim k_eigs = Except.error PyErr.valueError) := by
  constructor
  · exact min_le_right _ _
  · intro hdim
    unfold solve_mode_eigs eigsh_call
    rw [if_neg]
    · rfl
    · rintro ⟨hpos, hlt⟩
      have hk : k_req dim k_eigs ≤ (dim : ℤ) - 2 := min_le_right _ _
      have hdimz : (dim : ℤ) ≤ 2 := by exact_mod_cast Nat.lt_succ_iff.mp hdim
      omega

/-- C9 amended, witness: at reduced dimension 1 with the default
request 12, the amended theorem yields the ValueError outcome. -/
theorem solve_mode_eigs_clamp_and_failure_witness :
    solve_mode_eigs 1 12 = Except.error PyErr.valueError :=
  (solve_mode_eigs_clamp_and_failure 1 12).2 (by decide)

end GuiaRect

namespace HelmholtzFEM

lemma gaussG_pos : 0 < gaussG := by
  unfold gaussG
  positivity

lemma gaussG_lt_one : gaussG < 1 := by
  unfold gaussG
  rw [div_lt_one (by positivity)]
  calc (1 : ℝ) = Real.sqrt 1 := Real.sqrt_one.symm
  _ < Real.sqrt 3 := Real.sqrt_lt_sqrt (by norm_num) (by norm_num)

lemma gauss_xi_cases (gp : Fin 4) :
    (gauss_points gp).1 = -gaussG ∨ (gauss_points gp).1 = gaussG := by
  fin_cases gp <;> simp [gauss_points]

lemma dot4_shape_x_elem (d : Domain) (i : ℕ) (xi eta : ℝ) :
    dot4 (shape_functions xi eta) (x_elem d i)
      = d.x_array i * ((1 - xi) / 2) + d.x_array (i+1) * ((1 + xi) / 2) := by
  simp only [dot4, shape_functions, x_elem, Fin.sum_univ_four]
  simp
  ring

lemma sample_index_frac (x0 dx : ℝ) (n : ℕ) (i : ℕ) (f : ℝ)
    (hdx : 0 < dx) (hf0 : 0 ≤ f) (hf1 : f < 1) (hin : i + 1 < n) :
    sample_index x0 dx n (x0 + ((i : ℝ) + f) * dx) = i := by
  unfold sample_index pyInt
  have harg : (x0 + ((i : ℝ) + f) * dx - x0) / dx = f + ((i : ℤ) : ℝ) := by
    field_simp
    ring
  rw [harg]
  have hnn : (0 : ℝ) ≤ f + ((i : ℤ) : ℝ) := by
    have : (0 : ℝ) ≤ ((i : ℤ) : ℝ) := by
      push_cast
      positivity
    linarith
  rw [if_pos hnn, Int.floor_add_int,
    Int.floor_eq_zero_iff.mpr (Set.mem_Ico.mpr ⟨hf0, hf1⟩)]
  have hin' : (i : ℤ) + 1 < (n : ℤ) := by exact_mod_cast hin
  omega

/-- C2 amended: in assemble_fem_system the grid index sampled for the
velocity (and for the PML pair, which the code reads at that same
index) is min(max(int((x_gp - x0)/dx), 0), nx - 1) - the truncated
(floor) index of the grid cell containing the quadrature point.  On a
uniform increasing grid this is the element's own lower index i for all
four Gauss points; it is NOT the index minimizing |x_array[i] - x_gp|:
for the Gauss points with positive local coordinate (xi = +1/sqrt 3)
the minimizing index is i+1, strictly closer than the sampled index. -/
theorem quad_sampling_floor_not_nearest (d : Domain)
    (hdx : 0 < d.dx)
    (hgrid : ∀ k : ℕ, d.x_array k = d.x_array 0 + k * d.dx)
    (i : ℕ) (hi : i + 1 < d.nx) :
    (∀ gp : Fin 4,
      sample_index (d.x_array 0) d.dx d.nx
        (dot4 (shape_functions (gauss_points gp).1 (gauss_points gp).2)
          (x_elem d i)) = i) ∧
    |d.x_array (i+1) -
        dot4 (shape_functions (gauss_points 1).1 (gauss_points 1).2)
          (x_elem d i)| <
      |d.x_array i -
        dot4 (shape_functions (gauss_points 1).1 (gauss_points 1).2)
          (x_elem d i)| := by
  have hg0 := gaussG_pos
  have hg1 := gaussG_lt_one
  have hx : ∀ xi eta : ℝ,
      dot4 (shape_functions xi eta) (x_elem d i)
        = d.x_array 0 + ((i : ℝ) + (1 + xi) / 2) * d.dx := by
    intro xi eta
    rw [dot4_shape_x_elem, hgrid i, hgrid (i+1)]
    push_cast
    ring
  constructor
  · intro gp
    rw [hx]
    rcases gauss_xi_cases gp with h | h <;> rw [h]
    · exact sample_index_frac _ _ _ _ _ hdx (by linarith) (by linarith) hi
    · exact sample_index_frac _ _ _ _ _ hdx (by linarith) (by linarith) hi
  · rw [hx, hgrid i, hgrid (i+1)]
    have h1 : (gauss_points 1).1 = gaussG := by simp [gauss_points]
    rw [h1]
    have e1 : d.x_array 0 + (↑(i+1) : ℝ) * d.dx -
        (d.x_array 0 + ((i : ℝ) + (1 + gaussG) / 2) * d.dx)
        = d.dx * ((1 - gaussG) / 2) := by
      push_cast
      ring
    have e2 : d.x_array 0 + (i : ℝ) * d.dx -
        (d.x_array 0 + ((i : ℝ) + (1 + gaussG) / 2) * d.dx)
        = -(d.dx * ((1 + gaussG) / 2)) := by
      push_cast
      ring
    rw [e1, e2, abs_neg]
    rw [abs_of_nonneg (by nlinarith), abs_of_nonneg (by nlinarith)]
    nlinarith

/-- C2 counterexample: on the concrete unit domain (nodes at 0 and 1,
dx = 1), at the quadrature point with xi = +1/sqrt 3 of element 0 the
code samples index 0, yet grid index 1 is strictly closer to the
quadrature point - the sampled index does not minimize
|x_array[i] - x_gp|, refuting the nearest-index claim. -/
theorem quad_sampling_nearest_counterexample :
    sample_index (unit_domain.x_array 0) unit_domain.dx unit_domain.nx
      (dot4 (shape_functions (gauss_points 1).1 (gauss_points 1).2)
        (x_elem unit_domain 0)) = 0 ∧
    |unit_domain.x_array 1 -
        dot4 (shape_functions (gauss_points 1).1 (gauss_points 1).2)
          (x_elem unit_domain 0)| <
      |unit_domain.x_array 0 -
        dot4 (shape_functions (gauss_points 1).1 (gauss_points 1).2)
          (x_elem unit_domain 0)| := by
  have hg0 := gaussG_pos
  have hg1 := gaussG_lt_one
  have h1 : (gauss_points 1).1 = gaussG := by simp [gauss_points]
  have h2 : (gauss_points 1).2 = -gaussG := by simp [gauss_points]
  have hx : dot4 (shape_functions (gauss_points 1).1 (gauss_points 1).2)
      (x_elem unit_domain 0) = (1 + gaussG) / 2 := by
    rw [h1, h2, dot4_shape_x_elem]
    norm_num [unit_domain]
  constructor
  · rw [hx]
    have harg : ((1 : ℝ) + gaussG) / 2 =
        unit_domain.x_array 0 +
          (((0 : ℕ) : ℝ) + (1 + gaussG) / 2) * unit_domain.dx := by
      norm_num [unit_domain]
    rw [harg]
    exact sample_index_frac _ _ _ 0 _ (by norm_num [unit_domain]) (by linarith)
      (by linarith) (by norm_num [unit_domain])
  · rw [hx]
    have hx1 : unit_domain.x_array 1 = 1 := by norm_num [unit_domain]
    have hx0 : unit_domain.x_array 0 = 0 := by norm_num [unit_domain]
    rw [hx1, hx0]
    rw [show (1 : ℝ) - (1 + gaussG) / 2 = (1 - gaussG) / 2 by ring,
      show (0 : ℝ) - (1 + gaussG) / 2 = -((1 + gaussG) / 2) by ring, abs_neg]
    rw [abs_of_nonneg (by linarith), abs_of_nonneg (by linarith)]
    linarith

/-- C2 amended, witness: the amended theorem applied to the concrete
unit domain and element 0. -/
theorem quad_sampling_floor_not_nearest_witness :
    (∀ gp : Fin 4,
      sample_index (unit_domain.x_array 0) unit_domain.dx unit_domain.nx
        (dot4 (shape_functions (gauss_points gp).1 (gauss_points gp).2)
          (x_elem unit_domain 0)) = 0) ∧
    |unit_domain.x_array 1 -
        dot4 (shape_functions (gauss_points 1).1 (gauss_points 1).2)
          (x_elem unit_domain 0)| <
      |unit_domain.x_array 0 -
        dot4 (shape_functions (gauss_points 1).1 (gauss_points 1).2)
          (x_elem unit_domain 0)| :=
  quad_sampling_floor_not_nearest unit_domain (by norm_num [unit_domain])
    (fun k => by norm_num [unit_domain]) 0 (by norm_num [unit_domain])

end HelmholtzFEM

namespace HelmholtzFEM

lemma dot4_right_zero (u v : Fin 4 → ℝ) (h : ∀ k, v k = 0) : dot4 u v = 0 := by
  simp [dot4, h]

lemma x_elem_degenerate_zero (i : ℕ) (k : Fin 4) :
    x_elem degenerate_domain i k = 0 := by
  fin_cases k <;> simp [x_elem, degenerate_domain]

lemma gauss_step_degenerate (frequency : ℝ) (velocity : ℕ → ℕ → ℝ)
    (source : ℝ → ℝ → ℂ) (alpha : ℝ) (st : ElemMats) (gp : Fin 4) :
    gauss_step degenerate_domain frequency velocity source alpha 0 0 st gp
      = Except.error PyErr.linAlgError := by
  have h1 : dot4 (shape_dxi (gauss_points gp).1 (gauss_points gp).2)
      (x_elem degenerate_domain 0) = 0 :=
    dot4_right_zero _ _ (x_elem_degenerate_zero 0)
  have h2 : dot4 (shape_deta (gauss_points gp).1 (gauss_points gp).2)
      (x_elem degenerate_domain 0) = 0 :=
    dot4_right_zero _ _ (x_elem_degenerate_zero 0)
  simp only [gauss_step]
  split
  · rfl
  · rename_i hne
    exact absurd (by rw [h1, h2]; ring) hne

lemma elem_step_degenerate (frequency : ℝ) (velocity : ℕ → ℕ → ℝ)
    (source : ℝ → ℝ → ℂ) (alpha : ℝ) (g : GlobalMats) :
    elem_step degenerate_domain frequency velocity source alpha g (0, 0)
      = Except.error PyErr.linAlgError := by
  have hfr : List.finRange 4 = [0, 1, 2, 3] := by decide
  simp only [elem_step, hfr, List.foldlM_cons,
    gauss_step_degenerate frequency velocity source alpha]
  rfl

lemma assemble_fem_system_degenerate (frequency : ℝ)
    (velocity : ℕ → ℕ → ℝ) (source : ℝ → ℝ → ℂ) (alpha : ℝ) :
    assemble_fem_system degenerate_domain frequency velocity source alpha
      = Except.error PyErr.linAlgError := by
  have hcells : elem_cells degenerate_domain = [(0, 0)] := by
    simp only [elem_cells, degenerate_domain]
    decide
  simp only [assemble_fem_system, hcells, List.foldlM_cons,
    elem_step_degenerate frequency velocity source alpha]
  rfl

end HelmholtzFEM

namespace GuiaRect

lemma assembleK_skip_deg (coords : List (ℚ × ℚ))
    (pre post : List (ℕ × ℕ × ℕ)) (t : ℕ × ℕ × ℕ)
    (hdeg : area coords t ≤ areaTol) (I J : ℕ) :
    assembleK coords (pre ++ t :: post) I J
      = assembleK coords (pre ++ post) I J := by
  simp [assembleK, contribK, hdeg]

lemma assembleM_skip_deg (coords : List (ℚ × ℚ))
    (pre post : List (ℕ × ℕ × ℕ)) (t : ℕ × ℕ × ℕ)
    (hdeg : area coords t ≤ areaTol) (I J : ℕ) :
    assembleM coords (pre ++ t :: post) I J
      = assembleM coords (pre ++ post) I J := by
  simp [assembleM, contribM, hdeg]

end GuiaRect

/-- C1 counterexample: the claim states that the Q1 quad assembler
(assemble_fem_system) silently skips an element whose Jacobian
determinant is below tolerance and never raises on it.  On the
concrete degenerate domain whose single element has coinciding x
coordinates (det J = 0 exactly), assemble_fem_system raises
numpy.linalg.LinAlgError from np.linalg.inv(J) instead of skipping:
there is no degeneracy check in that assembler. -/
theorem assemble_fem_system_degenerate_raises :
    HelmholtzFEM.assemble_fem_system HelmholtzFEM.degenerate_domain 1
      (fun _ _ => 1) (fun _ _ => 0) 1 = Except.error PyErr.linAlgError :=
  HelmholtzFEM.assemble_fem_system_degenerate 1 (fun _ _ => 1)
    (fun _ _ => 0) 1

/-- C1 amended: the silent degenerate-element skip holds for the P1
triangle assembler assemble_K_M only - removing a triangle of area at
most 1e-18 from anywhere in the connectivity changes neither K nor M,
and that assembler raises no error.  The Q1 quad assembler
assemble_fem_system has no such check: on a degenerate element (exactly
singular Jacobian) it fails with LinAlgError from np.linalg.inv, for
every velocity field, source, frequency and alpha. -/
theorem degenerate_element_skip_P1_not_Q1 (coords : List (ℚ × ℚ))
    (pre post : List (ℕ × ℕ × ℕ)) (t : ℕ × ℕ × ℕ)
    (hdeg : GuiaRect.area coords t ≤ GuiaRect.areaTol) (I J : ℕ)
    (frequency alpha : ℝ) (velocity : ℕ → ℕ → ℝ) (source : ℝ → ℝ → ℂ) :
    GuiaRect.assembleK coords (pre ++ t :: post) I J
      = GuiaRect.assembleK coords (pre ++ post) I J ∧
    GuiaRect.assembleM coords (pre ++ t :: post) I J
      = GuiaRect.assembleM coords (pre ++ post) I J ∧
    HelmholtzFEM.assemble_fem_system HelmholtzFEM.degenerate_domain frequency
      velocity source alpha = Except.error PyErr.linAlgError :=
  ⟨GuiaRect.assembleK_skip_deg coords pre post t hdeg I J,
   GuiaRect.assembleM_skip_deg coords pre post t hdeg I J,
   HelmholtzFEM.assemble_fem_system_degenerate frequency velocity source alpha⟩

/-- C1 amended, witness: the collinear triangle (0,0), (1,0), (2,0) has
zero area; removing it from a one-element connectivity leaves the
assembled K unchanged (both sides are the empty assembly). -/
theorem degenerate_element_skip_witness :
    GuiaRect.assembleK [((0:ℚ),(0:ℚ)), (1,0), (2,0)] [(0,1,2)] 0 0
      = GuiaRect.assembleK [((0:ℚ),(0:ℚ)), (1,0), (2,0)] [] 0 0 := by
  have h := degenerate_element_skip_P1_not_Q1
    [((0:ℚ),(0:ℚ)), (1,0), (2,0)] [] [] (0,1,2)
    (by norm_num [GuiaRect.area, GuiaRect.detA, GuiaRect.xver,
      GuiaRect.yver, GuiaRect.tri_ids, GuiaRect.areaTol]) 0 0
    1 1 (fun _ _ => 1) (fun _ _ => 0)
  simpa using h.1
